import Mathlib

/-!
Verification development for the MoonMind turn-sequencing core
(Source/Tactics/TurnManager).  The repository's C++ sources contain only the
subclass shells `ATurnManager_Strategy` / `ATurnManager_Initiative` (empty
constructors, no members of their own); the behaviour of the registry, the
ordering strategies and the scheduler state machine is given by the design
document.  Accordingly, the definitions below are modelled from the spec
(each doc comment says so), except for the embedding of the
`ATurnManager_Strategy` constructor at the end, which is taken directly from
`TurnManager_Strategy.cpp` / `TurnManager_Strategy.h`.
-/

namespace TurnCore

/-- Modelled from the spec: participant status, section 3 "status {Active,
Incapacitated, Removed}". -/
inductive Status
  | Active
  | Incapacitated
  | Removed
deriving DecidableEq, Repr

/-- Modelled from the spec: a participant has a stable id, a side tag, a
mutable numeric priority, a status, and (to record registration order for
the Phase strategy) the index at which it was registered. -/
structure Participant where
  pid : Nat
  side : Nat
  priority : Int
  status : Status
  regIndex : Nat
deriving DecidableEq, Repr

/-- Modelled from the spec: a participant is eligible to take turns exactly
when its status is Active (Removed and Incapacitated are never selected). -/
def eligible (p : Participant) : Bool :=
  p.status == Status.Active

/-- Modelled from the spec: registry errors NotFound and DuplicateId. -/
inductive RegError
  | DuplicateId
  | NotFound
deriving DecidableEq, Repr

/-- Modelled from the spec: the Participant Registry, holding the
participants in registration order together with the next registration
index. -/
structure Registry where
  parts : List Participant
  nextReg : Nat
deriving DecidableEq, Repr

/-- Look a participant up by id. -/
def Registry.lookup (r : Registry) (i : Nat) : Option Participant :=
  r.parts.find? (fun p => p.pid == i)

/-- A registry id is eligible when it resolves to an Active participant. -/
def Registry.eligId (r : Registry) (i : Nat) : Bool :=
  match r.lookup i with
  | some p => eligible p
  | none => false

/-- Modelled from the spec: `Add(participant)` fails with DuplicateId when
the id already exists, otherwise appends an Active participant carrying the
next registration index. -/
def Registry.add (r : Registry) (i sd : Nat) (prio : Int) :
    Except RegError Registry :=
  if r.parts.any (fun p => p.pid == i) then
    .error .DuplicateId
  else
    .ok ⟨r.parts ++ [⟨i, sd, prio, Status.Active, r.nextReg⟩], r.nextReg + 1⟩

/-- Modelled from the spec: `SetStatus(id, status)`; fails with NotFound
when the id is absent. -/
def Registry.setStatus (r : Registry) (i : Nat) (st : Status) :
    Except RegError Registry :=
  if r.parts.any (fun p => p.pid == i) then
    .ok ⟨r.parts.map (fun p => if p.pid == i then { p with status := st } else p),
         r.nextReg⟩
  else
    .error .NotFound

/-- Modelled from the spec: `Remove(id)` marks the participant Removed (no
physical erasure); fails with NotFound when the id is absent. -/
def Registry.remove (r : Registry) (i : Nat) : Except RegError Registry :=
  r.setStatus i Status.Removed

/-- Modelled from the spec: `UpdatePriority(id, value)`; fails with NotFound
when the id is absent. -/
def Registry.updatePriority (r : Registry) (i : Nat) (v : Int) :
    Except RegError Registry :=
  if r.parts.any (fun p => p.pid == i) then
    .ok ⟨r.parts.map (fun p => if p.pid == i then { p with priority := v } else p),
         r.nextReg⟩
  else
    .error .NotFound

/-- Stable insertion into a sorted list; `le` is the sorting relation. -/
def insertOrdered {α : Type} (le : α → α → Bool) (a : α) : List α → List α
  | [] => [a]
  | b :: l => if le a b then a :: b :: l else b :: insertOrdered le a l

/-- Stable insertion sort: the deterministic sort used for the ordered
views handed to the strategies. -/
def sortOrdered {α : Type} (le : α → α → Bool) : List α → List α
  | [] => []
  | a :: l => insertOrdered le a (sortOrdered le l)

theorem insertOrdered_perm {α : Type} (le : α → α → Bool) (a : α) :
    ∀ l : List α, (insertOrdered le a l).Perm (a :: l) := by
  intro l
  induction l with
  | nil => exact List.Perm.refl _
  | cons b l ih =>
      unfold insertOrdered
      by_cases hab : le a b = true
      · rw [if_pos hab]
      · rw [if_neg hab]
        exact (ih.cons b).trans (List.Perm.swap a b l)

theorem sortOrdered_perm {α : Type} (le : α → α → Bool) :
    ∀ l : List α, (sortOrdered le l).Perm l := by
  intro l
  induction l with
  | nil => exact List.Perm.refl _
  | cons a l ih =>
      exact (insertOrdered_perm le a (sortOrdered le l)).trans (ih.cons a)

theorem mem_sortOrdered {α : Type} {le : α → α → Bool} {a : α} {l : List α} :
    a ∈ sortOrdered le l ↔ a ∈ l :=
  (sortOrdered_perm le l).mem_iff

/-- Modelled from the spec: `Snapshot()` returns an immutable ordered-by-id
view of the registry for deterministic strategy computation. -/
def Registry.snapshot (r : Registry) : List Participant :=
  sortOrdered (fun a b => a.pid.ble b.pid) r.parts

/-- Modelled from the spec: the configured ordering strategy, either the
Phase strategy with its fixed cyclic side order, or the Initiative
strategy. -/
inductive StrategyKind
  | Phase (sideOrder : List Nat)
  | Initiative
deriving DecidableEq, Repr

/-- Modelled from the spec: the eligible participants of one side, in
registration order (registration-index ascending). -/
def sideBlock (snap : List Participant) (sd : Nat) : List Participant :=
  sortOrdered (fun a b => a.regIndex.ble b.regIndex)
    (snap.filter (fun p => eligible p && p.side == sd))

/-- Modelled from the spec: the Initiative comparison, priority descending
with ties broken by id ascending. -/
def initLe (a b : Participant) : Bool :=
  decide (b.priority < a.priority) ||
    (a.priority == b.priority && a.pid.ble b.pid)

/-- Modelled from the spec: `ComputeOrder(registrySnapshot) -> ordered
sequence of participant ids for the upcoming round`.  The Phase strategy
cycles the sides in the configured fixed order, each side contributing its
eligible participants in registration order; the Initiative strategy sorts
all eligible participants by priority descending, ties id-ascending.  An
empty eligible set yields the empty sequence (the EmptyRoundResult). -/
def ComputeOrder (strat : StrategyKind) (snap : List Participant) : List Nat :=
  match strat with
  | .Phase so => (so.map (fun sd => (sideBlock snap sd).map Participant.pid)).flatten
  | .Initiative => (sortOrdered initLe (snap.filter eligible)).map Participant.pid

/-- Modelled from the spec: scheduler lifecycle states
`NotStarted → InProgress → Concluded`. -/
inductive SchedState
  | NotStarted
  | InProgress
  | Concluded
deriving DecidableEq, Repr

/-- Modelled from the spec: a TurnRecord holds the current participant, the
round number (starts at 1) and the turn-within-round index. -/
structure TurnRecord where
  current : Nat
  round : Nat
  index : Nat
deriving DecidableEq, Repr

/-- Modelled from the spec: lifecycle events delivered to listeners. -/
inductive Event
  | EncounterStarted
  | TurnStarted (pid round index : Nat)
  | TurnEnded (pid : Nat) (forced : Bool)
  | EncounterConcluded
deriving DecidableEq, Repr

/-- Modelled from the spec: explicit result values returned to the caller
(never thrown): success, the AlreadyConcluded no-op signal, NoParticipants
for Start on an empty registry, and registry errors. -/
inductive OpResult
  | Ok
  | AlreadyConcluded
  | NoParticipants
  | RegFailed (e : RegError)
deriving DecidableEq, Repr

/-- Modelled from the spec: the Turn Scheduler, owning the registry, the
configured strategy, the lifecycle state, the current TurnRecord (none
outside InProgress) and the frozen remainder of the current round's order. -/
structure Scheduler where
  registry : Registry
  strategy : StrategyKind
  state : SchedState
  record : Option TurnRecord
  pending : List Nat
deriving DecidableEq, Repr

/-- Skip ineligible ids at the head of the frozen order. -/
def dropIneligible (r : Registry) (l : List Nat) : List Nat :=
  l.dropWhile (fun i => !(r.eligId i))

/-- Modelled from the spec: select the next participant.  If the frozen
order still holds an eligible id, the first such id becomes current at the
given round and index; otherwise the round is exhausted, a fresh
`ComputeOrder` runs, an empty result concludes the encounter
(EncounterConcluded, no further turns), and a non-empty result starts the
next round (round incremented, index reset to 0). -/
def Scheduler.selectNext (s : Scheduler) (rnd idx : Nat) :
    Scheduler × List Event :=
  match dropIneligible s.registry s.pending with
  | i :: rest =>
      ({ s with record := some ⟨i, rnd, idx⟩, pending := rest },
       [Event.TurnStarted i rnd idx])
  | [] =>
      match ComputeOrder s.strategy s.registry.snapshot with
      | [] =>
          ({ s with state := .Concluded, record := none, pending := [] },
           [Event.EncounterConcluded])
      | i :: rest =>
          ({ s with record := some ⟨i, rnd + 1, 0⟩, pending := rest },
           [Event.TurnStarted i (rnd + 1) 0])

/-- Modelled from the spec: `Start()`.  On a Concluded scheduler it is a
no-op returning AlreadyConcluded; on a running scheduler it does nothing;
from NotStarted it requires a non-empty registry (else NoParticipants),
triggers the first `ComputeOrder`, and either concludes at once (no
eligible participant) or makes the first ordered participant current at
round 1, index 0. -/
def Scheduler.start (s : Scheduler) : OpResult × Scheduler × List Event :=
  match s.state with
  | .Concluded => (.AlreadyConcluded, s, [])
  | .InProgress => (.Ok, s, [])
  | .NotStarted =>
      if s.registry.parts.isEmpty then
        (.NoParticipants, s, [])
      else
        match ComputeOrder s.strategy s.registry.snapshot with
        | [] =>
            (.Ok, { s with state := .Concluded, record := none, pending := [] },
             [Event.EncounterStarted, Event.EncounterConcluded])
        | i :: rest =>
            (.Ok,
             { s with state := .InProgress,
                      record := some ⟨i, 1, 0⟩, pending := rest },
             [Event.EncounterStarted, Event.TurnStarted i 1 0])

/-- Modelled from the spec: `Advance()`.  AlreadyConcluded after
conclusion; before Start it leaves the scheduler unchanged (the spec leaves
this case open); while InProgress it ends the current turn and selects the
next eligible participant in the frozen order, recomputing at a round
boundary. -/
def Scheduler.advance (s : Scheduler) : OpResult × Scheduler × List Event :=
  match s.state with
  | .Concluded => (.AlreadyConcluded, s, [])
  | .NotStarted => (.Ok, s, [])
  | .InProgress =>
      match s.record with
      | none => (.Ok, s, [])
      | some r =>
          let next := Scheduler.selectNext s r.round (r.index + 1)
          (.Ok, next.1, Event.TurnEnded r.current false :: next.2)

/-- Modelled from the spec: a mutation event forwarded to
`NotifyMutation`: participant added, removed, priority updated or status
changed. -/
inductive MutationEvent
  | AddP (i sd : Nat) (prio : Int)
  | RemoveP (i : Nat)
  | UpdatePriorityP (i : Nat) (v : Int)
  | SetStatusP (i : Nat) (st : Status)
deriving DecidableEq, Repr

/-- Apply a mutation event to the registry. -/
def Registry.applyMutation (r : Registry) (m : MutationEvent) :
    Except RegError Registry :=
  match m with
  | .AddP i sd prio => r.add i sd prio
  | .RemoveP i => r.remove i
  | .UpdatePriorityP i v => r.updatePriority i v
  | .SetStatusP i st => r.setStatus i st

/-- Modelled from the spec: `NotifyMutation(event)`.  AlreadyConcluded (and
no state change at all) after conclusion; registry errors are returned
explicitly; otherwise the registry is updated and, if the currently acting
participant has become ineligible, its turn is force-ended
(`TurnEnded forced=true`) and an implicit advance selects the next
participant. -/
def Scheduler.notifyMutation (s : Scheduler) (m : MutationEvent) :
    OpResult × Scheduler × List Event :=
  match s.state with
  | .Concluded => (.AlreadyConcluded, s, [])
  | .NotStarted =>
      match s.registry.applyMutation m with
      | .error e => (.RegFailed e, s, [])
      | .ok reg => (.Ok, { s with registry := reg }, [])
  | .InProgress =>
      match s.registry.applyMutation m with
      | .error e => (.RegFailed e, s, [])
      | .ok reg =>
          match s.record with
          | none => (.Ok, { s with registry := reg }, [])
          | some r =>
              if reg.eligId r.current then
                (.Ok, { s with registry := reg }, [])
              else
                let next :=
                  Scheduler.selectNext { s with registry := reg }
                    r.round (r.index + 1)
                (.Ok, next.1, Event.TurnEnded r.current true :: next.2)

/-- Modelled from the spec: `End()`: explicit termination, usable in any
state, forces Concluded, idempotent (AlreadyConcluded on repeats). -/
def Scheduler.endEncounter (s : Scheduler) : OpResult × Scheduler × List Event :=
  match s.state with
  | .Concluded => (.AlreadyConcluded, s, [])
  | _ =>
      (.Ok, { s with state := .Concluded, record := none, pending := [] },
       [Event.EncounterConcluded])

/-- Modelled from the spec: the inbound operations of the scheduler. -/
inductive Op
  | startOp
  | advanceOp
  | notifyOp (m : MutationEvent)
  | endOp
deriving DecidableEq, Repr

/-- Dispatch one inbound operation. -/
def Scheduler.applyOp (s : Scheduler) (op : Op) :
    OpResult × Scheduler × List Event :=
  match op with
  | .startOp => s.start
  | .advanceOp => s.advance
  | .notifyOp m => s.notifyMutation m
  | .endOp => s.endEncounter

/-- Run a sequence of operations, collecting all emitted events. -/
def Scheduler.runOps (s : Scheduler) : List Op → Scheduler × List Event
  | [] => (s, [])
  | op :: rest =>
      let step := s.applyOp op
      let tail := step.2.1.runOps rest
      (tail.1, step.2.2 ++ tail.2)

/-- Modelled from the spec: a freshly created scheduler bound to one
strategy and a pre-populated registry, not yet started. -/
def initScheduler (strat : StrategyKind) (r : Registry) : Scheduler :=
  ⟨r, strat, .NotStarted, none, []⟩

/-- Registry well-formedness: participant ids are pairwise distinct. -/
def Registry.wf (r : Registry) : Prop :=
  (r.parts.map Participant.pid).Nodup

/-- Configuration well-formedness: the Phase strategy's fixed side order
lists each side at most once. -/
def StrategyKind.wfStrat : StrategyKind → Prop
  | .Phase so => so.Nodup
  | .Initiative => True

/-- The scheduler states reachable from a well-formed initial scheduler by
inbound operations. -/
inductive Reachable : Scheduler → Prop
  | init (strat : StrategyKind) (r : Registry)
      (hr : r.wf) (hs : strat.wfStrat) :
      Reachable (initScheduler strat r)
  | step (s : Scheduler) (op : Op) (h : Reachable s) :
      Reachable (s.applyOp op).2.1

/-- The participant ids of the TurnStarted events in an event list, in
emission order. -/
def startedOf (evs : List Event) : List Nat :=
  evs.filterMap (fun e =>
    match e with
    | .TurnStarted i _ _ => some i
    | _ => none)

/-- Embeds `ATurnManager_Strategy` from `TurnManager_Strategy.h`: the class
is declared with a `GENERATED_BODY`, a constructor and commented-out
overrides only, so it carries no data members of its own beyond the state
inherited from the `ATurnManager` base (whose header is not among the
sources; its construction-time state is abstracted as `BaseState`). -/
structure ATurnManager_Strategy (BaseState : Type) where
  base : BaseState

/-- Embeds the constructor `ATurnManager_Strategy::ATurnManager_Strategy()`
from `TurnManager_Strategy.cpp` lines 3-6: the constructor body is empty,
so construction wraps the state produced by the base-class constructor and
changes nothing. -/
def ATurnManager_Strategy.construct {BaseState : Type} (b : BaseState) :
    ATurnManager_Strategy BaseState := ⟨b⟩

/-! ### Basic lemmas about the registry and `ComputeOrder` -/

theorem sortOrdered_nil {α : Type} (le : α → α → Bool) :
    sortOrdered le ([] : List α) = [] := rfl

theorem mem_snapshot {r : Registry} {p : Participant} :
    p ∈ r.snapshot ↔ p ∈ r.parts :=
  mem_sortOrdered

theorem snapshot_pid_nodup {r : Registry} (h : r.wf) :
    (r.snapshot.map Participant.pid).Nodup := by
  unfold Registry.snapshot
  exact (((sortOrdered_perm (fun a b => a.pid.ble b.pid)
      r.parts).map Participant.pid).nodup_iff).mpr h

theorem mem_sideBlock {snap : List Participant} {sd : Nat} {p : Participant} :
    p ∈ sideBlock snap sd ↔ p ∈ snap ∧ eligible p = true ∧ p.side = sd := by
  unfold sideBlock
  rw [mem_sortOrdered, List.mem_filter]
  simp [and_assoc]

theorem computeOrder_mem {strat : StrategyKind} {snap : List Participant}
    {i : Nat} (h : i ∈ ComputeOrder strat snap) :
    ∃ p, p ∈ snap ∧ p.pid = i ∧ eligible p = true := by
  cases strat with
  | Phase so =>
      simp only [ComputeOrder, List.mem_flatten, List.mem_map] at h
      obtain ⟨l, ⟨sd, _, rfl⟩, hil⟩ := h
      obtain ⟨p, hp, rfl⟩ := List.mem_map.mp hil
      have hp' := mem_sideBlock.mp hp
      exact ⟨p, hp'.1, rfl, hp'.2.1⟩
  | Initiative =>
      simp only [ComputeOrder, List.mem_map, mem_sortOrdered,
        List.mem_filter] at h
      obtain ⟨p, ⟨hp, he⟩, rfl⟩ := h
      exact ⟨p, hp, rfl, he⟩

theorem computeOrder_nil_of_none_eligible {strat : StrategyKind}
    {snap : List Participant} (h : ∀ p ∈ snap, eligible p = false) :
    ComputeOrder strat snap = [] := by
  cases strat with
  | Phase so =>
      simp only [ComputeOrder]
      rw [List.flatten_eq_nil_iff]
      intro l hl
      obtain ⟨sd, _, rfl⟩ := List.mem_map.mp hl
      have hf : snap.filter (fun p => eligible p && p.side == sd) = [] :=
        List.filter_eq_nil_iff.mpr (by intro a ha; simp [h a ha])
      unfold sideBlock
      rw [hf, sortOrdered_nil, List.map_nil]
  | Initiative =>
      simp only [ComputeOrder]
      have hf : snap.filter eligible = [] :=
        List.filter_eq_nil_iff.mpr (by intro a ha; simp [h a ha])
      rw [hf, sortOrdered_nil, List.map_nil]

theorem computeOrder_nodup {strat : StrategyKind} {snap : List Participant}
    (hsnap : (snap.map Participant.pid).Nodup) (hstr : strat.wfStrat) :
    (ComputeOrder strat snap).Nodup := by
  have hinj : ∀ p ∈ snap, ∀ q ∈ snap, p.pid = q.pid → p = q :=
    fun p hp q hq => List.inj_on_of_nodup_map hsnap hp hq
  cases strat with
  | Initiative =>
      have hperm :=
        (sortOrdered_perm initLe (snap.filter eligible)).map Participant.pid
      have hsub : ((snap.filter eligible).map Participant.pid).Sublist
          (snap.map Participant.pid) :=
        (List.filter_sublist _).map _
      exact (hperm.nodup_iff).mpr (hsub.nodup hsnap)
  | Phase so =>
      simp only [ComputeOrder]
      rw [List.nodup_flatten]
      constructor
      · intro l hl
        obtain ⟨sd, _, rfl⟩ := List.mem_map.mp hl
        have hperm :=
          (sortOrdered_perm (fun a b => a.regIndex.ble b.regIndex)
            (snap.filter (fun p => eligible p && p.side == sd))).map
            Participant.pid
        have hsub :
            ((snap.filter (fun p => eligible p && p.side == sd)).map
              Participant.pid).Sublist (snap.map Participant.pid) :=
          (List.filter_sublist _).map _
        exact (hperm.nodup_iff).mpr (hsub.nodup hsnap)
      · rw [List.pairwise_map]
        have hso : so.Pairwise (· ≠ ·) := hstr
        refine hso.imp ?_
        intro a b hab i hia hib
        obtain ⟨p, hp, rfl⟩ := List.mem_map.mp hia
        obtain ⟨q, hq, hpq⟩ := List.mem_map.mp hib
        have hp' := mem_sideBlock.mp hp
        have hq' := mem_sideBlock.mp hq
        have hpq' : p = q := hinj p hp'.1 q hq'.1 hpq.symm
        exact hab (hp'.2.2 ▸ hq'.2.2 ▸ congrArg Participant.side hpq')

theorem find?_pid_eq :
    ∀ {l : List Participant} {p : Participant},
      (l.map Participant.pid).Nodup → p ∈ l →
      l.find? (fun q => q.pid == p.pid) = some p := by
  intro l
  induction l with
  | nil => intro p _ hp; cases hp
  | cons a l ih =>
      intro p hnd hp
      rw [List.map_cons, List.nodup_cons] at hnd
      cases hp with
      | head => simp [List.find?_cons]
      | tail _ hp' =>
          have hne : (a.pid == p.pid) = false := by
            rw [beq_eq_false_iff_ne]
            intro he
            exact hnd.1 (he ▸ List.mem_map_of_mem Participant.pid hp')
          rw [List.find?_cons, hne]
          exact ih hnd.2 hp'

theorem lookup_eq_of_mem {r : Registry} {p : Participant}
    (hwf : r.wf) (hp : p ∈ r.parts) : r.lookup p.pid = some p :=
  find?_pid_eq hwf hp

theorem eligId_of_mem {r : Registry} {p : Participant}
    (hwf : r.wf) (hp : p ∈ r.parts) (he : eligible p = true) :
    r.eligId p.pid = true := by
  unfold Registry.eligId
  rw [lookup_eq_of_mem hwf hp]
  exact he

theorem eligId_false_of_none_eligible {r : Registry}
    (h : ∀ p ∈ r.parts, eligible p = false) (i : Nat) :
    r.eligId i = false := by
  unfold Registry.eligId Registry.lookup
  cases hf : r.parts.find? (fun p => p.pid == i) with
  | none => rfl
  | some q => exact h q (List.mem_of_find?_eq_some hf)

theorem dropWhile_head_false {α : Type} {p : α → Bool} :
    ∀ {l : List α} {x : α} {xs : List α},
      l.dropWhile p = x :: xs → p x = false := by
  intro l
  induction l with
  | nil => intro x xs h; cases h
  | cons a l ih =>
      intro x xs h
      rw [List.dropWhile_cons] at h
      by_cases hpa : p a = true
      · rw [if_pos hpa] at h; exact ih h
      · rw [if_neg hpa] at h
        cases h
        exact Bool.eq_false_iff.mpr hpa

theorem dropIneligible_sublist (r : Registry) (l : List Nat) :
    (dropIneligible r l).Sublist l :=
  List.dropWhile_sublist _

theorem dropIneligible_head_elig {r : Registry} {l rest : List Nat} {i : Nat}
    (h : dropIneligible r l = i :: rest) : r.eligId i = true := by
  have hh := dropWhile_head_false h
  simpa using hh

theorem dropIneligible_nil {r : Registry} {l : List Nat}
    (h : ∀ i, r.eligId i = false) : dropIneligible r l = [] := by
  unfold dropIneligible
  induction l with
  | nil => rfl
  | cons a l ih =>
      rw [List.dropWhile_cons, if_pos (by simp [h a])]
      exact ih

/-! ### Registry mutations preserve well-formedness -/

theorem add_wf {r r' : Registry} {i sd : Nat} {prio : Int}
    (hwf : r.wf) (h : r.add i sd prio = .ok r') : r'.wf := by
  unfold Registry.add at h
  by_cases hc : r.parts.any (fun p => p.pid == i) = true
  · rw [if_pos hc] at h; cases h
  · rw [if_neg hc] at h
    cases h
    show (List.map Participant.pid
      (r.parts ++ [⟨i, sd, prio, Status.Active, r.nextReg⟩])).Nodup
    rw [List.map_append, List.nodup_append]
    refine ⟨hwf, List.nodup_singleton _, ?_⟩
    intro a ha hb
    simp only [List.map_cons, List.map_nil, List.mem_singleton] at hb
    subst hb
    apply hc
    rw [List.any_eq_true]
    obtain ⟨p, hp, hpi⟩ := List.mem_map.mp ha
    exact ⟨p, hp, by simp [hpi]⟩

theorem setStatus_wf {r r' : Registry} {i : Nat} {st : Status}
    (hwf : r.wf) (h : r.setStatus i st = .ok r') : r'.wf := by
  unfold Registry.setStatus at h
  by_cases hc : r.parts.any (fun p => p.pid == i) = true
  · rw [if_pos hc] at h
    cases h
    show (List.map Participant.pid
      (r.parts.map (fun p => if p.pid == i then { p with status := st } else p))).Nodup
    rw [List.map_map]
    have hcomp :
        (Participant.pid ∘ fun p => if p.pid == i then { p with status := st } else p)
          = Participant.pid := by
      funext p
      by_cases hp : (p.pid == i) = true <;> simp [Function.comp, hp]
    rw [hcomp]
    exact hwf
  · rw [if_neg hc] at h; cases h

theorem remove_wf {r r' : Registry} {i : Nat}
    (hwf : r.wf) (h : r.remove i = .ok r') : r'.wf :=
  setStatus_wf hwf h

theorem updatePriority_wf {r r' : Registry} {i : Nat} {v : Int}
    (hwf : r.wf) (h : r.updatePriority i v = .ok r') : r'.wf := by
  unfold Registry.updatePriority at h
  by_cases hc : r.parts.any (fun p => p.pid == i) = true
  · rw [if_pos hc] at h
    cases h
    show (List.map Participant.pid
      (r.parts.map (fun p => if p.pid == i then { p with priority := v } else p))).Nodup
    rw [List.map_map]
    have hcomp :
        (Participant.pid ∘ fun p => if p.pid == i then { p with priority := v } else p)
          = Participant.pid := by
      funext p
      by_cases hp : (p.pid == i) = true <;> simp [Function.comp, hp]
    rw [hcomp]
    exact hwf
  · rw [if_neg hc] at h; cases h

theorem applyMutation_wf {r r' : Registry} {m : MutationEvent}
    (hwf : r.wf) (h : r.applyMutation m = .ok r') : r'.wf := by
  cases m with
  | AddP i sd prio => exact add_wf hwf h
  | RemoveP i => exact remove_wf hwf h
  | UpdatePriorityP i v => exact updatePriority_wf hwf h
  | SetStatusP i st => exact setStatus_wf hwf h

/-- Updating a priority never changes any participant's eligibility. -/
theorem updatePriority_eligId {r r' : Registry} {i : Nat} {v : Int}
    (h : r.updatePriority i v = .ok r') :
    ∀ j, r'.eligId j = r.eligId j := by
  unfold Registry.updatePriority at h
  by_cases hc : r.parts.any (fun p => p.pid == i) = true
  · rw [if_pos hc] at h
    cases h
    intro j
    unfold Registry.eligId Registry.lookup
    show (match (r.parts.map
        (fun p => if p.pid == i then { p with priority := v } else p)).find?
          (fun p => p.pid == j) with
      | some p => eligible p
      | none => false) = _
    rw [List.find?_map]
    have hpred :
        ((fun p : Participant => p.pid == j) ∘
          fun p => if p.pid == i then { p with priority := v } else p)
          = (fun p : Participant => p.pid == j) := by
      funext p
      by_cases hp : (p.pid == i) = true <;> simp [Function.comp, hp]
    rw [hpred]
    cases hf : r.parts.find? (fun p => p.pid == j) with
    | none => rfl
    | some q =>
        by_cases hq : q.pid = i <;>
          simp [Option.map_some, eligible, hq]
  · rw [if_neg hc] at h; cases h

/-! ### The scheduler invariant -/

/-- The invariant maintained by every reachable scheduler state: the
registry and configuration stay well-formed, records exist exactly while
InProgress, rounds start at 1, the current participant is always eligible
(Active), and the frozen remainder of the round never repeats ids nor the
current participant. -/
structure SchedInv (s : Scheduler) : Prop where
  regWf : s.registry.wf
  stratWf : s.strategy.wfStrat
  notStartedNone : s.state = SchedState.NotStarted →
    s.record = none ∧ s.pending = []
  concludedNone : s.state = SchedState.Concluded →
    s.record = none ∧ s.pending = []
  inProgressSome : s.state = SchedState.InProgress → s.record ≠ none
  recordOk : ∀ r, s.record = some r →
    s.state = SchedState.InProgress ∧ 1 ≤ r.round ∧
    s.registry.eligId r.current = true ∧
    r.current ∉ s.pending ∧ s.pending.Nodup

theorem computeOrder_head_inv {reg : Registry} {strat : StrategyKind}
    {i : Nat} {rest : List Nat} (hwf : reg.wf) (hstr : strat.wfStrat)
    (ho : ComputeOrder strat reg.snapshot = i :: rest) :
    reg.eligId i = true ∧ i ∉ rest ∧ rest.Nodup := by
  have hmem : i ∈ ComputeOrder strat reg.snapshot :=
    ho ▸ List.mem_cons_self i rest
  obtain ⟨p, hp, hpi, hel⟩ := computeOrder_mem hmem
  have hp' : p ∈ reg.parts := mem_snapshot.mp hp
  have hnd := @computeOrder_nodup strat reg.snapshot (snapshot_pid_nodup hwf) hstr
  rw [ho, List.nodup_cons] at hnd
  exact ⟨hpi ▸ eligId_of_mem hwf hp' hel, hnd.1, hnd.2⟩

theorem selectNext_inv {s : Scheduler} {rnd idx : Nat}
    (hwf : s.registry.wf) (hstr : s.strategy.wfStrat)
    (hst : s.state = SchedState.InProgress)
    (hpend : s.pending.Nodup) (hrnd : 1 ≤ rnd) :
    SchedInv (s.selectNext rnd idx).1 := by
  unfold Scheduler.selectNext
  cases hd : dropIneligible s.registry s.pending with
  | cons i rest =>
      have hel : s.registry.eligId i = true := dropIneligible_head_elig hd
      have hsub : (i :: rest).Sublist s.pending := hd ▸ dropIneligible_sublist _ _
      have hnd : (i :: rest).Nodup := hsub.nodup hpend
      rw [List.nodup_cons] at hnd
      exact
        { regWf := hwf
          stratWf := hstr
          notStartedNone := by intro h; rw [hst] at h; cases h
          concludedNone := by intro h; rw [hst] at h; cases h
          inProgressSome := by intro _ h; cases h
          recordOk := by
            intro r hr
            cases hr
            exact ⟨hst, hrnd, hel, hnd.1, hnd.2⟩ }
  | nil =>
      cases ho : ComputeOrder s.strategy s.registry.snapshot with
      | nil =>
          exact
            { regWf := hwf
              stratWf := hstr
              notStartedNone := by intro h; cases h
              concludedNone := by intro _; exact ⟨rfl, rfl⟩
              inProgressSome := by intro h; cases h
              recordOk := by intro r hr; cases hr }
      | cons i rest =>
          obtain ⟨hel, hni, hnd⟩ := computeOrder_head_inv hwf hstr ho
          exact
            { regWf := hwf
              stratWf := hstr
              notStartedNone := by intro h; rw [hst] at h; cases h
              concludedNone := by intro h; rw [hst] at h; cases h
              inProgressSome := by intro _ h; cases h
              recordOk := by
                intro r hr
                cases hr
                exact ⟨hst, Nat.le_add_left 1 rnd, hel, hni, hnd⟩ }

theorem selectNext_record_cases {s : Scheduler} {rnd idx : Nat}
    {r' : TurnRecord} (h : (s.selectNext rnd idx).1.record = some r') :
    (r'.round = rnd ∧ r'.index = idx) ∨ (r'.round = rnd + 1 ∧ r'.index = 0) := by
  unfold Scheduler.selectNext at h
  cases hd : dropIneligible s.registry s.pending with
  | cons i rest =>
      rw [hd] at h
      cases h
      exact Or.inl ⟨rfl, rfl⟩
  | nil =>
      rw [hd] at h
      cases ho : ComputeOrder s.strategy s.registry.snapshot with
      | nil => rw [ho] at h; cases h
      | cons i rest =>
          rw [ho] at h
          cases h
          exact Or.inr ⟨rfl, rfl⟩

theorem inv_start {s : Scheduler} (h : SchedInv s) : SchedInv (s.start).2.1 := by
  obtain ⟨reg, strat, st, rec, pend⟩ := s
  cases st with
  | Concluded => exact h
  | InProgress => exact h
  | NotStarted =>
      obtain ⟨hrec, hpend⟩ := h.notStartedNone rfl
      subst hrec
      subst hpend
      show SchedInv
        (Scheduler.start ⟨reg, strat, SchedState.NotStarted, none, []⟩).2.1
      unfold Scheduler.start
      cases he : reg.parts.isEmpty with
      | true => simp only [he, if_true]; exact h
      | false =>
          simp only [he, Bool.false_eq_true, if_false]
          cases ho : ComputeOrder strat reg.snapshot with
          | nil =>
              exact
                { regWf := h.regWf
                  stratWf := h.stratWf
                  notStartedNone := by intro hh; cases hh
                  concludedNone := fun _ => ⟨rfl, rfl⟩
                  inProgressSome := by intro hh; cases hh
                  recordOk := by intro r hr; cases hr }
          | cons i rest =>
              obtain ⟨hel, hni, hnd⟩ :=
                computeOrder_head_inv h.regWf h.stratWf ho
              exact
                { regWf := h.regWf
                  stratWf := h.stratWf
                  notStartedNone := by intro hh; cases hh
                  concludedNone := by intro hh; cases hh
                  inProgressSome := by intro _ hh; cases hh
                  recordOk := by
                    intro r hr
                    cases hr
                    exact ⟨rfl, Nat.le_refl 1, hel, hni, hnd⟩ }

theorem inv_advance {s : Scheduler} (h : SchedInv s) : SchedInv (s.advance).2.1 := by
  obtain ⟨reg, strat, st, rec, pend⟩ := s
  cases st with
  | Concluded => exact h
  | NotStarted => exact h
  | InProgress =>
      cases rec with
      | none => exact absurd rfl (h.inProgressSome rfl)
      | some r =>
          obtain ⟨_, hrnd, _, _, hnd⟩ := h.recordOk r rfl
          show SchedInv
            ((⟨reg, strat, SchedState.InProgress, some r, pend⟩ :
              Scheduler).selectNext r.round (r.index + 1)).1
          exact selectNext_inv h.regWf h.stratWf rfl hnd hrnd

theorem inv_notify {s : Scheduler} {m : MutationEvent} (h : SchedInv s) :
    SchedInv (s.notifyMutation m).2.1 := by
  obtain ⟨reg, strat, st, rec, pend⟩ := s
  cases st with
  | Concluded => exact h
  | NotStarted =>
      obtain ⟨hrec, hpend⟩ := h.notStartedNone rfl
      subst hrec
      subst hpend
      show SchedInv
        (Scheduler.notifyMutation
          ⟨reg, strat, SchedState.NotStarted, none, []⟩ m).2.1
      unfold Scheduler.notifyMutation
      cases hm : reg.applyMutation m with
      | error e => exact h
      | ok reg' =>
          exact
            { regWf := applyMutation_wf h.regWf hm
              stratWf := h.stratWf
              notStartedNone := fun _ => ⟨rfl, rfl⟩
              concludedNone := by intro hh; cases hh
              inProgressSome := by intro hh; cases hh
              recordOk := by intro r hr; cases hr }
  | InProgress =>
      cases rec with
      | none => exact absurd rfl (h.inProgressSome rfl)
      | some r =>
          show SchedInv
            (Scheduler.notifyMutation
              ⟨reg, strat, SchedState.InProgress, some r, pend⟩ m).2.1
          unfold Scheduler.notifyMutation
          cases hm : reg.applyMutation m with
          | error e => exact h
          | ok reg' =>
              obtain ⟨_, hrnd, _, hcur, hnd⟩ := h.recordOk r rfl
              cases he : reg'.eligId r.current with
              | true =>
                  simp only [he, if_true]
                  exact
                    { regWf := applyMutation_wf h.regWf hm
                      stratWf := h.stratWf
                      notStartedNone := by intro hh; cases hh
                      concludedNone := by intro hh; cases hh
                      inProgressSome := by intro _ hh; cases hh
                      recordOk := by
                        intro r' hr'
                        cases hr'
                        exact ⟨rfl, hrnd, he, hcur, hnd⟩ }
              | false =>
                  simp only [he, Bool.false_eq_true, if_false]
                  exact selectNext_inv (s :=
                      ⟨reg', strat, SchedState.InProgress, some r, pend⟩)
                    (applyMutation_wf h.regWf hm) h.stratWf rfl hnd hrnd

theorem inv_endEncounter {s : Scheduler} (h : SchedInv s) :
    SchedInv (s.endEncounter).2.1 := by
  obtain ⟨reg, strat, st, rec, pend⟩ := s
  cases st with
  | Concluded => exact h
  | NotStarted =>
      exact
        { regWf := h.regWf
          stratWf := h.stratWf
          notStartedNone := by intro hh; cases hh
          concludedNone := fun _ => ⟨rfl, rfl⟩
          inProgressSome := by intro hh; cases hh
          recordOk := by intro r hr; cases hr }
  | InProgress =>
      exact
        { regWf := h.regWf
          stratWf := h.stratWf
          notStartedNone := by intro hh; cases hh
          concludedNone := fun _ => ⟨rfl, rfl⟩
          inProgressSome := by intro hh; cases hh
          recordOk := by intro r hr; cases hr }

theorem inv_applyOp {s : Scheduler} (op : Op) (h : SchedInv s) :
    SchedInv (s.applyOp op).2.1 := by
  cases op with
  | startOp => exact inv_start h
  | advanceOp => exact inv_advance h
  | notifyOp m => exact inv_notify h
  | endOp => exact inv_endEncounter h

theorem inv_init {strat : StrategyKind} {r : Registry}
    (hr : r.wf) (hs : strat.wfStrat) : SchedInv (initScheduler strat r) :=
  { regWf := hr
    stratWf := hs
    notStartedNone := fun _ => ⟨rfl, rfl⟩
    concludedNone := by intro hh; cases hh
    inProgressSome := by intro hh; cases hh
    recordOk := by intro r' hr'; cases hr' }

/-- Every reachable scheduler state satisfies the invariant. -/
theorem reachable_inv {s : Scheduler} (h : Reachable s) : SchedInv s := by
  induction h with
  | init strat r hr hs => exact inv_init hr hs
  | step s op _ ih => exact inv_applyOp op ih

theorem startedOf_append (a b : List Event) :
    startedOf (a ++ b) = startedOf a ++ startedOf b :=
  List.filterMap_append a b _

/-- One advance step on an InProgress scheduler whose frozen order starts
with an eligible id: the head is selected within the same round. -/
theorem advance_elig_head {reg : Registry} {strat : StrategyKind}
    {r : TurnRecord} {i : Nat} {rest : List Nat} (pd : List Nat)
    (hpd : pd = i :: rest) (hi : reg.eligId i = true) :
    Scheduler.advance ⟨reg, strat, SchedState.InProgress, some r, pd⟩
      = (OpResult.Ok,
         ⟨reg, strat, SchedState.InProgress,
          some ⟨i, r.round, r.index + 1⟩, rest⟩,
         [Event.TurnEnded r.current false,
          Event.TurnStarted i r.round (r.index + 1)]) := by
  subst hpd
  have hdi : dropIneligible reg (i :: rest) = i :: rest := by
    unfold dropIneligible
    rw [List.dropWhile_cons]
    simp [hi]
  unfold Scheduler.advance Scheduler.selectNext
  rw [hdi]

/-- Running as many advances as the frozen order is long, with every id in
the order eligible, emits TurnStarted events for exactly those ids in
order. -/
theorem runAdvances_startedOf :
    ∀ (pend : List Nat) (s : Scheduler) (r : TurnRecord),
      s.state = SchedState.InProgress → s.record = some r →
      s.pending = pend → (∀ j ∈ pend, s.registry.eligId j = true) →
      startedOf (s.runOps (List.replicate pend.length Op.advanceOp)).2 = pend := by
  intro pend
  induction pend with
  | nil =>
      intro s r _ _ _ _
      simp [Scheduler.runOps, startedOf]
  | cons i rest ih =>
      intro s r hst hrec hpend helig
      obtain ⟨reg, strat, st, rec, pd⟩ := s
      subst hst
      subst hrec
      subst hpend
      have hi : reg.eligId i = true := helig i (List.mem_cons_self i rest)
      have hstep := @advance_elig_head reg strat r i rest (i :: rest) rfl hi
      have ih' := ih
        ⟨reg, strat, SchedState.InProgress, some ⟨i, r.round, r.index + 1⟩, rest⟩
        ⟨i, r.round, r.index + 1⟩ rfl rfl rfl
        (fun j hj => helig j (List.mem_cons_of_mem i hj))
      rw [List.length_cons, List.replicate_succ]
      show startedOf
        ((Scheduler.runOps ⟨reg, strat, SchedState.InProgress, some r, i :: rest⟩
          (Op.advanceOp :: List.replicate rest.length Op.advanceOp))).2 = i :: rest
      simp only [Scheduler.runOps, Scheduler.applyOp, hstep]
      rw [startedOf_append]
      rw [ih']
      rfl

/-! ### Concrete demonstration data (used by witnesses and counterexamples) -/

/-- The spec's Initiative scenario registry:
A=1 (side 1, prio 5), B=2 (side 2, prio 9), C=3 (side 1, prio 2). -/
def regABC : Registry :=
  ⟨[⟨1, 1, 5, Status.Active, 0⟩, ⟨2, 2, 9, Status.Active, 1⟩,
    ⟨3, 1, 2, Status.Active, 2⟩], 3⟩

/-- Two participants on two sides: 1 (prio 10) and 2 (prio 5). -/
def regPair : Registry :=
  ⟨[⟨1, 1, 10, Status.Active, 0⟩, ⟨2, 2, 5, Status.Active, 1⟩], 2⟩

/-- A single participant. -/
def regSolo : Registry := ⟨[⟨1, 1, 5, Status.Active, 0⟩], 1⟩

/-- The spec's Phase scenario registry: sides [1,2] with participants
1 and 2 on side 1, 3 on side 2. -/
def regPhaseDemo : Registry :=
  ⟨[⟨1, 1, 0, Status.Active, 0⟩, ⟨2, 1, 0, Status.Active, 1⟩,
    ⟨3, 2, 0, Status.Active, 2⟩], 3⟩

theorem regABC_wf : regABC.wf := by unfold Registry.wf; decide

theorem regPair_wf : regPair.wf := by unfold Registry.wf; decide

theorem regSolo_wf : regSolo.wf := by unfold Registry.wf; decide

theorem regPhaseDemo_wf : regPhaseDemo.wf := by unfold Registry.wf; decide

/-- Start `regPair` under Initiative, advance to participant 2, then during
2's turn incapacitate 1 and add participant 3 (prio 3): round 1's order is
exhausted and participant 2 still tops the fresh round-2 order. -/
def sPreReselect : Scheduler :=
  (((((initScheduler StrategyKind.Initiative regPair).applyOp
        Op.startOp).2.1.applyOp Op.advanceOp).2.1.applyOp
        (Op.notifyOp (MutationEvent.SetStatusP 1
          Status.Incapacitated))).2.1.applyOp
        (Op.notifyOp (MutationEvent.AddP 3 1 3))).2.1

theorem sPreReselect_reachable : Reachable sPreReselect :=
  Reachable.step _ _ (Reachable.step _ _ (Reachable.step _ _
    (Reachable.step _ _
      (Reachable.init StrategyKind.Initiative regPair regPair_wf trivial))))

/-- A scheduler already started on `regABC` (current participant 2,
round 1, index 0). -/
def sStartedABC : Scheduler :=
  ((initScheduler StrategyKind.Initiative regABC).applyOp Op.startOp).2.1

theorem sStartedABC_reachable : Reachable sStartedABC :=
  Reachable.step _ _
    (Reachable.init StrategyKind.Initiative regABC regABC_wf trivial)

/-! ### Claim theorems -/

/-- C1: for every registry snapshot, `ComputeOrder` (for both the Phase and
the Initiative strategy) is total — it is a Lean function defined on all
inputs — and deterministic: identical snapshot inputs produce an identical
order, and identical scheduler states with identical operation sequences
produce identical runs (identical turn sequences). -/
theorem C1_computeOrder_deterministic (strat : StrategyKind)
    (snap₁ snap₂ : List Participant) (s₁ s₂ : Scheduler) (ops : List Op)
    (hsnap : snap₁ = snap₂) (hs : s₁ = s₂) :
    ComputeOrder strat snap₁ = ComputeOrder strat snap₂ ∧
    s₁.runOps ops = s₂.runOps ops := by
  subst hsnap
  subst hs
  exact ⟨rfl, rfl⟩

theorem C1_witness :
    ComputeOrder StrategyKind.Initiative regABC.snapshot
        = ComputeOrder StrategyKind.Initiative regABC.snapshot ∧
      (initScheduler StrategyKind.Initiative regABC).runOps
          [Op.startOp, Op.advanceOp]
        = (initScheduler StrategyKind.Initiative regABC).runOps
          [Op.startOp, Op.advanceOp] :=
  C1_computeOrder_deterministic StrategyKind.Initiative
    regABC.snapshot regABC.snapshot
    (initScheduler StrategyKind.Initiative regABC)
    (initScheduler StrategyKind.Initiative regABC)
    [Op.startOp, Op.advanceOp] rfl rfl

theorem applyOp_concluded {s : Scheduler} (op : Op)
    (h : s.state = SchedState.Concluded) :
    s.applyOp op = (OpResult.AlreadyConcluded, s, []) := by
  obtain ⟨reg, strat, st, rec, pend⟩ := s
  subst h
  cases op with
  | startOp => rfl
  | advanceOp => rfl
  | notifyOp m => rfl
  | endOp => rfl

theorem runOps_concluded {s : Scheduler} (ops : List Op)
    (h : s.state = SchedState.Concluded) :
    s.runOps ops = (s, []) := by
  induction ops with
  | nil => rfl
  | cons op rest ih =>
      simp only [Scheduler.runOps, applyOp_concluded op h, ih]
      rfl

/-- C3: every operation (Start, Advance, NotifyMutation, End) on a
Concluded scheduler is a no-op: it returns the AlreadyConcluded signal,
leaves the whole scheduler state (registry included) unchanged and emits no
events, and this holds for arbitrary operation sequences (any number of
times). -/
theorem C3_concluded_noop (s : Scheduler) (op : Op) (ops : List Op)
    (h : s.state = SchedState.Concluded) :
    s.applyOp op = (OpResult.AlreadyConcluded, s, []) ∧
    s.runOps ops = (s, []) :=
  ⟨applyOp_concluded op h, runOps_concluded ops h⟩

theorem C3_witness :
    (⟨regABC, StrategyKind.Initiative, SchedState.Concluded, none, []⟩ :
        Scheduler).applyOp Op.advanceOp
      = (OpResult.AlreadyConcluded,
         ⟨regABC, StrategyKind.Initiative, SchedState.Concluded, none, []⟩, []) ∧
    (⟨regABC, StrategyKind.Initiative, SchedState.Concluded, none, []⟩ :
        Scheduler).runOps
        [Op.advanceOp, Op.startOp, Op.notifyOp (MutationEvent.RemoveP 1),
         Op.endOp, Op.advanceOp]
      = (⟨regABC, StrategyKind.Initiative, SchedState.Concluded, none, []⟩, []) :=
  C3_concluded_noop
    ⟨regABC, StrategyKind.Initiative, SchedState.Concluded, none, []⟩
    Op.advanceOp
    [Op.advanceOp, Op.startOp, Op.notifyOp (MutationEvent.RemoveP 1),
     Op.endOp, Op.advanceOp] rfl

/-- C4: in every reachable scheduler state, the participant designated as
current by the TurnRecord exists in the registry and has status Active —
a Removed or Incapacitated participant is never current. -/
theorem C4_current_active (s : Scheduler) (r : TurnRecord)
    (hreach : Reachable s) (hrec : s.record = some r) :
    ∃ p, s.registry.lookup r.current = some p ∧ p.status = Status.Active := by
  have hinv := reachable_inv hreach
  obtain ⟨_, _, hel, _, _⟩ := hinv.recordOk r hrec
  unfold Registry.eligId at hel
  cases hl : s.registry.lookup r.current with
  | none => rw [hl] at hel; cases hel
  | some p =>
      rw [hl] at hel
      refine ⟨p, rfl, ?_⟩
      simpa [eligible] using hel

theorem C4_witness :
    ∃ p, sStartedABC.registry.lookup
        ((⟨2, 1, 0⟩ : TurnRecord).current) = some p ∧
      p.status = Status.Active :=
  C4_current_active sStartedABC ⟨2, 1, 0⟩ sStartedABC_reachable (by rfl)

/-- C10: constructing `ATurnManager_Strategy` performs no state change
beyond base-class construction: the constructor body in
`TurnManager_Strategy.cpp` is empty and the class declares no members of
its own, so after construction every inherited field holds exactly the
base-class value, and any instance is determined by its base state alone. -/
theorem C10_strategy_ctor_frame (BaseState : Type) (b : BaseState)
    (t : ATurnManager_Strategy BaseState) :
    (ATurnManager_Strategy.construct b).base = b ∧
    t = ATurnManager_Strategy.construct t.base :=
  ⟨rfl, rfl⟩

theorem step_round_cases {s : Scheduler} {op : Op} {r r' : TurnRecord}
    (hinv : SchedInv s) (hrec : s.record = some r)
    (hr' : (s.applyOp op).2.1.record = some r') :
    r'.round = r.round ∨ (r'.round = r.round + 1 ∧ r'.index = 0) := by
  obtain ⟨hst, _, _, _, _⟩ := hinv.recordOk r hrec
  obtain ⟨reg, strat, st, rec, pend⟩ := s
  subst hst
  cases hrec
  cases op with
  | startOp => cases hr'; exact Or.inl rfl
  | advanceOp =>
      have hc := @selectNext_record_cases
        ⟨reg, strat, SchedState.InProgress, some r, pend⟩
        r.round (r.index + 1) r' hr'
      rcases hc with ⟨h1, _⟩ | ⟨h1, h2⟩
      · exact Or.inl h1
      · exact Or.inr ⟨h1, h2⟩
  | notifyOp m =>
      unfold Scheduler.applyOp Scheduler.notifyMutation at hr'
      cases hm : reg.applyMutation m with
      | error e => simp only [hm] at hr'; cases hr'; exact Or.inl rfl
      | ok reg' =>
          simp only [hm] at hr'
          cases he : reg'.eligId r.current with
          | true =>
              simp only [he, if_true] at hr'
              cases hr'
              exact Or.inl rfl
          | false =>
              simp only [he, Bool.false_eq_true, if_false] at hr'
              have hc := @selectNext_record_cases
                ⟨reg', strat, SchedState.InProgress, some r, pend⟩
                r.round (r.index + 1) r' hr'
              rcases hc with ⟨h1, _⟩ | ⟨h1, h2⟩
              · exact Or.inl h1
              · exact Or.inr ⟨h1, h2⟩
  | endOp => cases hr'

theorem step_round_init {s : Scheduler} {op : Op} {r₂ : TurnRecord}
    (hinv : SchedInv s) (hrec : s.record = none)
    (hr' : (s.applyOp op).2.1.record = some r₂) :
    r₂.round = 1 ∧ r₂.index = 0 := by
  obtain ⟨reg, strat, st, rec, pend⟩ := s
  cases hrec
  cases st with
  | InProgress => exact absurd rfl (hinv.inProgressSome rfl)
  | Concluded =>
      rw [applyOp_concluded
        (s := ⟨reg, strat, SchedState.Concluded, none, pend⟩) op rfl] at hr'
      cases hr'
  | NotStarted =>
      cases op with
      | startOp =>
          unfold Scheduler.applyOp Scheduler.start at hr'
          cases he : reg.parts.isEmpty with
          | true => simp only [he, if_true] at hr'; cases hr'
          | false =>
              simp only [he, Bool.false_eq_true, if_false] at hr'
              cases ho : ComputeOrder strat reg.snapshot with
              | nil => simp only [ho] at hr'; cases hr'
              | cons i rest =>
                  simp only [ho] at hr'
                  cases hr'
                  exact ⟨rfl, rfl⟩
      | advanceOp => cases hr'
      | notifyOp m =>
          unfold Scheduler.applyOp Scheduler.notifyMutation at hr'
          cases hm : reg.applyMutation m with
          | error e => simp only [hm] at hr'; cases hr'
          | ok reg' => simp only [hm] at hr'; cases hr'
      | endOp => cases hr'

/-- C5: across every sequence of scheduler operations the round number
starts at 1 and never decreases — every step keeps the round or increments
it by exactly one — and whenever a new round begins the turn-within-round
index resets to 0: the first TurnRecord created from a record-free
reachable state has round 1 and index 0. -/
theorem C5_round_monotone
    (s₁ : Scheduler) (op₁ : Op) (r r' : TurnRecord)
    (s₂ : Scheduler) (op₂ : Op) (r₂ : TurnRecord)
    (hreach₁ : Reachable s₁) (hrec₁ : s₁.record = some r)
    (hr' : (s₁.applyOp op₁).2.1.record = some r')
    (hreach₂ : Reachable s₂) (hrec₂ : s₂.record = none)
    (hr₂ : (s₂.applyOp op₂).2.1.record = some r₂) :
    1 ≤ r'.round ∧
    (r'.round = r.round ∨ (r'.round = r.round + 1 ∧ r'.index = 0)) ∧
    (r₂.round = 1 ∧ r₂.index = 0) :=
  ⟨((inv_applyOp op₁ (reachable_inv hreach₁)).recordOk r' hr').2.1,
   step_round_cases (reachable_inv hreach₁) hrec₁ hr',
   step_round_init (reachable_inv hreach₂) hrec₂ hr₂⟩

theorem C5_witness :
    1 ≤ (⟨1, 1, 1⟩ : TurnRecord).round ∧
    ((⟨1, 1, 1⟩ : TurnRecord).round = (⟨2, 1, 0⟩ : TurnRecord).round ∨
      ((⟨1, 1, 1⟩ : TurnRecord).round = (⟨2, 1, 0⟩ : TurnRecord).round + 1 ∧
        (⟨1, 1, 1⟩ : TurnRecord).index = 0)) ∧
    ((⟨2, 1, 0⟩ : TurnRecord).round = 1 ∧
      (⟨2, 1, 0⟩ : TurnRecord).index = 0) :=
  C5_round_monotone sStartedABC Op.advanceOp ⟨2, 1, 0⟩ ⟨1, 1, 1⟩
    (initScheduler StrategyKind.Initiative regABC) Op.startOp ⟨2, 1, 0⟩
    sStartedABC_reachable (by rfl) (by rfl)
    (Reachable.init StrategyKind.Initiative regABC regABC_wf trivial)
    rfl (by rfl)

/-- C2 is false as stated: in the reachable state `sPreReselect`
(participant 2 current, round 1), an Advance() that does not conclude the
encounter re-selects participant 2 — the immediately preceding current
participant — although participant 3 is also eligible, so 2 is not the
only eligible one remaining. -/
theorem C2_counterexample :
    sPreReselect.state = SchedState.InProgress ∧
    sPreReselect.record = some ⟨2, 1, 1⟩ ∧
    (sPreReselect.advance).2.1.state ≠ SchedState.Concluded ∧
    (sPreReselect.advance).2.1.record = some ⟨2, 2, 0⟩ ∧
    sPreReselect.registry.eligId 2 = true ∧
    sPreReselect.registry.eligId 3 = true := by
  decide

theorem advance_select_spec {s : Scheduler} {r r' : TurnRecord}
    (hinv : SchedInv s) (hrec : s.record = some r)
    (hr' : (s.advance).2.1.record = some r') :
    (startedOf (s.advance).2.2).length = 1 ∧
    (r'.round = r.round → r'.current ≠ r.current) ∧
    (r'.round ≠ r.round →
      ComputeOrder s.strategy s.registry.snapshot
        = r'.current :: (s.advance).2.1.pending) := by
  obtain ⟨hst, _, _, hcur, _⟩ := hinv.recordOk r hrec
  obtain ⟨reg, strat, st, rec, pend⟩ := s
  subst hst
  cases hrec
  unfold Scheduler.advance Scheduler.selectNext at hr' ⊢
  cases hd : dropIneligible reg pend with
  | cons i rest =>
      simp only [hd] at hr' ⊢
      cases hr'
      have hmem : i ∈ pend :=
        (hd ▸ dropIneligible_sublist reg pend).subset
          (List.mem_cons_self i rest)
      refine ⟨rfl, ?_, ?_⟩
      · intro _ heq
        exact hcur (heq ▸ hmem)
      · intro hne
        exact absurd rfl hne
  | nil =>
      simp only [hd] at hr' ⊢
      cases ho : ComputeOrder strat reg.snapshot with
      | nil => simp only [ho] at hr'; cases hr'
      | cons i rest =>
          simp only [ho] at hr' ⊢
          cases hr'
          refine ⟨rfl, ?_, ?_⟩
          · intro heq
            exact absurd heq (Nat.succ_ne_self r.round)
          · intro _
            rfl

/-- C2 (amended): for every Advance() on a reachable scheduler that selects
a next participant (does not conclude), exactly one TurnStarted event is
emitted; when the turn stays within the same round, the selected
participant always differs from the immediately preceding current
participant; and when a new round begins, the selected participant is
exactly the head of the freshly computed round order — so the previous
current participant can be re-selected only at a round boundary when it
heads the new order (in particular in the single-survivor case). -/
theorem C2_advance_amended
    (s₁ : Scheduler) (r₁ r₁' : TurnRecord)
    (s₂ : Scheduler) (r₂ r₂' : TurnRecord)
    (h₁ : Reachable s₁) (hrec₁ : s₁.record = some r₁)
    (hr₁' : (s₁.advance).2.1.record = some r₁')
    (hsame : r₁'.round = r₁.round)
    (h₂ : Reachable s₂) (hrec₂ : s₂.record = some r₂)
    (hr₂' : (s₂.advance).2.1.record = some r₂')
    (hdiff : r₂'.round ≠ r₂.round) :
    (startedOf (s₁.advance).2.2).length = 1 ∧
    (startedOf (s₂.advance).2.2).length = 1 ∧
    r₁'.current ≠ r₁.current ∧
    ComputeOrder s₂.strategy s₂.registry.snapshot
      = r₂'.current :: (s₂.advance).2.1.pending :=
  ⟨(advance_select_spec (reachable_inv h₁) hrec₁ hr₁').1,
   (advance_select_spec (reachable_inv h₂) hrec₂ hr₂').1,
   (advance_select_spec (reachable_inv h₁) hrec₁ hr₁').2.1 hsame,
   (advance_select_spec (reachable_inv h₂) hrec₂ hr₂').2.2 hdiff⟩

theorem C2_witness :
    (startedOf (sStartedABC.advance).2.2).length = 1 ∧
    (startedOf (sPreReselect.advance).2.2).length = 1 ∧
    (⟨1, 1, 1⟩ : TurnRecord).current ≠ (⟨2, 1, 0⟩ : TurnRecord).current ∧
    ComputeOrder sPreReselect.strategy sPreReselect.registry.snapshot
      = (⟨2, 2, 0⟩ : TurnRecord).current :: (sPreReselect.advance).2.1.pending :=
  C2_advance_amended sStartedABC ⟨2, 1, 0⟩ ⟨1, 1, 1⟩
    sPreReselect ⟨2, 1, 1⟩ ⟨2, 2, 0⟩
    sStartedABC_reachable (by rfl) (by rfl) (by decide)
    sPreReselect_reachable (by rfl) (by rfl) (by decide)

/-- A registry whose only participant is already Removed. -/
def regDead : Registry := ⟨[⟨1, 1, 5, Status.Removed, 0⟩], 1⟩

/-- An InProgress scheduler over `regDead` (used to exercise advancing when
no participant is eligible any more). -/
def sDead : Scheduler :=
  ⟨regDead, StrategyKind.Initiative, SchedState.InProgress, some ⟨1, 1, 0⟩, []⟩

/-- A started scheduler over the single-participant registry. -/
def sSoloStarted : Scheduler :=
  ((initScheduler StrategyKind.Initiative regSolo).applyOp Op.startOp).2.1

/-- C6: `ComputeOrder` on an empty eligible set returns the empty round
result (not an error); an Advance() on a scheduler whose registry has no
eligible participant transitions to Concluded emitting EncounterConcluded
and no TurnStarted; and removing the sole remaining eligible participant
(the current one) makes the implicit advance of the removal conclude the
encounter — emitting EncounterConcluded, with no crash or infinite loop. -/
theorem C6_empty_concludes
    (strat : StrategyKind) (snap : List Participant)
    (s₁ : Scheduler) (r₁ : TurnRecord) (s₂ : Scheduler) (r₂ : TurnRecord)
    (hsnap : ∀ p ∈ snap, eligible p = false)
    (hst₁ : s₁.state = SchedState.InProgress) (hrec₁ : s₁.record = some r₁)
    (hnone : ∀ p ∈ s₁.registry.parts, eligible p = false)
    (hst₂ : s₂.state = SchedState.InProgress) (hrec₂ : s₂.record = some r₂)
    (hsole : ∀ p ∈ s₂.registry.parts, eligible p = true → p.pid = r₂.current)
    (hmem : s₂.registry.parts.any (fun p => p.pid == r₂.current) = true) :
    ComputeOrder strat snap = [] ∧
    ((s₁.advance).2.1.state = SchedState.Concluded ∧
      (s₁.advance).2.2
        = [Event.TurnEnded r₁.current false, Event.EncounterConcluded]) ∧
    ((s₂.notifyMutation (MutationEvent.RemoveP r₂.current)).2.1.state
        = SchedState.Concluded ∧
      (s₂.notifyMutation (MutationEvent.RemoveP r₂.current)).2.2
        = [Event.TurnEnded r₂.current true, Event.EncounterConcluded]) := by
  refine ⟨computeOrder_nil_of_none_eligible hsnap, ?_, ?_⟩
  · have hids : ∀ i, s₁.registry.eligId i = false :=
      eligId_false_of_none_eligible hnone
    have hco : ComputeOrder s₁.strategy s₁.registry.snapshot = [] :=
      computeOrder_nil_of_none_eligible
        (fun p hp => hnone p (mem_snapshot.mp hp))
    obtain ⟨reg, strat₁, st, rec, pend⟩ := s₁
    subst hst₁
    cases hrec₁
    have hdi : dropIneligible reg pend = [] := dropIneligible_nil hids
    unfold Scheduler.advance Scheduler.selectNext
    simp only [hdi, hco]
    exact ⟨trivial, trivial⟩
  · obtain ⟨reg, strat₂, st, rec, pend⟩ := s₂
    subst hst₂
    cases hrec₂
    have hrem : reg.remove r₂.current
        = Except.ok (⟨reg.parts.map (fun p =>
            if p.pid == r₂.current then { p with status := Status.Removed }
            else p), reg.nextReg⟩ : Registry) := by
      unfold Registry.remove Registry.setStatus
      rw [if_pos hmem]
    have hnone' : ∀ q ∈ reg.parts.map (fun p =>
        if p.pid == r₂.current then { p with status := Status.Removed }
        else p), eligible q = false := by
      intro q hq
      obtain ⟨p, hp, rfl⟩ := List.mem_map.mp hq
      by_cases hpc : p.pid = r₂.current
      · simp [hpc, eligible]
      · rw [if_neg (by simp [hpc])]
        cases hel : eligible p with
        | false => rfl
        | true => exact absurd (hsole p hp hel) hpc
    have hids' : ∀ i, (⟨reg.parts.map (fun p =>
        if p.pid == r₂.current then { p with status := Status.Removed }
        else p), reg.nextReg⟩ : Registry).eligId i = false :=
      eligId_false_of_none_eligible hnone'
    have hdi' : dropIneligible (⟨reg.parts.map (fun p =>
        if p.pid == r₂.current then { p with status := Status.Removed }
        else p), reg.nextReg⟩ : Registry) pend = [] :=
      dropIneligible_nil hids'
    have hco' : ComputeOrder strat₂ (⟨reg.parts.map (fun p =>
        if p.pid == r₂.current then { p with status := Status.Removed }
        else p), reg.nextReg⟩ : Registry).snapshot = [] :=
      computeOrder_nil_of_none_eligible
        (fun p hp => hnone' p (mem_snapshot.mp hp))
    unfold Scheduler.notifyMutation Registry.applyMutation
    simp only [hrem, hids' r₂.current, Bool.false_eq_true, if_false]
    unfold Scheduler.selectNext
    simp only [hdi', hco']
    exact ⟨trivial, trivial⟩

theorem C6_witness :
    ComputeOrder StrategyKind.Initiative regDead.parts = [] ∧
    ((sDead.advance).2.1.state = SchedState.Concluded ∧
      (sDead.advance).2.2
        = [Event.TurnEnded 1 false, Event.EncounterConcluded]) ∧
    ((sSoloStarted.notifyMutation
        (MutationEvent.RemoveP (⟨1, 1, 0⟩ : TurnRecord).current)).2.1.state
        = SchedState.Concluded ∧
      (sSoloStarted.notifyMutation
        (MutationEvent.RemoveP (⟨1, 1, 0⟩ : TurnRecord).current)).2.2
        = [Event.TurnEnded (⟨1, 1, 0⟩ : TurnRecord).current true,
           Event.EncounterConcluded]) :=
  C6_empty_concludes StrategyKind.Initiative regDead.parts
    sDead ⟨1, 1, 0⟩ sSoloStarted ⟨1, 1, 0⟩
    (by decide) (by decide) (by decide) (by decide)
    (by decide) (by decide) (by decide) (by decide)

/-- C7: under the Phase strategy with configured side order `so`, one full
round (the Start selection plus one Advance per remaining slot, with no
intervening mutation) emits TurnStarted events whose participant ids are
exactly the concatenation, in the configured fixed side order, of each
side's eligible participants in registration order — so each side's
participants appear contiguously, the total count is the sum of the
per-side eligible sizes, and a side with no eligible participants
contributes nothing to the round (it is skipped without consuming a turn
slot). -/
theorem C7_phase_round (reg : Registry) (so : List Nat) (i : Nat)
    (rest : List Nat) (sd : Nat) (so₁ so₂ : List Nat)
    (hwf : reg.wf)
    (horder : ComputeOrder (StrategyKind.Phase so) reg.snapshot = i :: rest)
    (hne : reg.parts.isEmpty = false)
    (hskip : ∀ p ∈ reg.parts, p.side = sd → eligible p = false) :
    startedOf
        (((initScheduler (StrategyKind.Phase so) reg).start).2.2 ++
          ((((initScheduler (StrategyKind.Phase so) reg).start).2.1.runOps
            (List.replicate rest.length Op.advanceOp)).2))
      = (so.map (fun s =>
          (sideBlock reg.snapshot s).map Participant.pid)).flatten ∧
    (startedOf
        (((initScheduler (StrategyKind.Phase so) reg).start).2.2 ++
          ((((initScheduler (StrategyKind.Phase so) reg).start).2.1.runOps
            (List.replicate rest.length Op.advanceOp)).2))).length
      = (so.map (fun s => (sideBlock reg.snapshot s).length)).sum ∧
    ComputeOrder (StrategyKind.Phase (so₁ ++ sd :: so₂)) reg.snapshot
      = ComputeOrder (StrategyKind.Phase (so₁ ++ so₂)) reg.snapshot := by
  have hstart : (initScheduler (StrategyKind.Phase so) reg).start
      = (OpResult.Ok,
         ⟨reg, StrategyKind.Phase so, SchedState.InProgress,
          some ⟨i, 1, 0⟩, rest⟩,
         [Event.EncounterStarted, Event.TurnStarted i 1 0]) := by
    unfold initScheduler Scheduler.start
    simp only [hne, Bool.false_eq_true, if_false, horder]
  have helig : ∀ j ∈ rest, reg.eligId j = true := by
    intro j hj
    have hjmem : j ∈ ComputeOrder (StrategyKind.Phase so) reg.snapshot :=
      horder ▸ List.mem_cons_of_mem i hj
    obtain ⟨p, hp, hpj, hel⟩ := computeOrder_mem hjmem
    exact hpj ▸ eligId_of_mem hwf (mem_snapshot.mp hp) hel
  have hrun := runAdvances_startedOf rest
    ⟨reg, StrategyKind.Phase so, SchedState.InProgress, some ⟨i, 1, 0⟩, rest⟩
    ⟨i, 1, 0⟩ rfl rfl rfl helig
  have hms : startedOf
      (((initScheduler (StrategyKind.Phase so) reg).start).2.2 ++
        ((((initScheduler (StrategyKind.Phase so) reg).start).2.1.runOps
          (List.replicate rest.length Op.advanceOp)).2)) = i :: rest := by
    rw [hstart, startedOf_append, hrun]
    rfl
  have hlen : (ComputeOrder (StrategyKind.Phase so) reg.snapshot).length
      = (so.map (fun s => (sideBlock reg.snapshot s).length)).sum := by
    show ((so.map (fun s =>
      (sideBlock reg.snapshot s).map Participant.pid)).flatten).length = _
    rw [List.length_flatten, List.map_map]
    congr 1
    apply List.map_congr_left
    intro a _
    simp [Function.comp]
  refine ⟨?_, ?_, ?_⟩
  · rw [hms]
    exact horder.symm
  · rw [hms, ← horder]
    exact hlen
  · have hblock : sideBlock reg.snapshot sd = [] := by
      unfold sideBlock
      have hf : reg.snapshot.filter
          (fun p => eligible p && p.side == sd) = [] := by
        rw [List.filter_eq_nil_iff]
        intro p hp hcon
        rw [Bool.and_eq_true] at hcon
        have hside : p.side = sd := by simpa using hcon.2
        rw [hskip p (mem_snapshot.mp hp) hside] at hcon
        cases hcon.1
      rw [hf, sortOrdered_nil]
    simp only [ComputeOrder, List.map_append, List.map_cons,
      List.flatten_append, List.flatten_cons, hblock, List.map_nil,
      List.nil_append]

theorem C7_witness :
    startedOf
        (((initScheduler (StrategyKind.Phase [1, 2]) regPhaseDemo).start).2.2 ++
          ((((initScheduler
              (StrategyKind.Phase [1, 2]) regPhaseDemo).start).2.1.runOps
            (List.replicate ([2, 3] : List Nat).length Op.advanceOp)).2))
      = ([1, 2].map (fun s =>
          (sideBlock regPhaseDemo.snapshot s).map Participant.pid)).flatten ∧
    (startedOf
        (((initScheduler (StrategyKind.Phase [1, 2]) regPhaseDemo).start).2.2 ++
          ((((initScheduler
              (StrategyKind.Phase [1, 2]) regPhaseDemo).start).2.1.runOps
            (List.replicate ([2, 3] : List Nat).length Op.advanceOp)).2))).length
      = ([1, 2].map (fun s => (sideBlock regPhaseDemo.snapshot s).length)).sum ∧
    ComputeOrder (StrategyKind.Phase ([1] ++ 5 :: [2])) regPhaseDemo.snapshot
      = ComputeOrder (StrategyKind.Phase ([1] ++ [2])) regPhaseDemo.snapshot :=
  C7_phase_round regPhaseDemo [1, 2] 1 [2, 3] 5 [1] [2]
    regPhaseDemo_wf (by decide) (by decide) (by decide)

/-- The spec's Initiative scenario: start on `regABC`, raise A's priority to
20 during round 1, then run out round 1 and round 2. -/
def demoOps8 : List Op :=
  [Op.startOp, Op.notifyOp (MutationEvent.UpdatePriorityP 1 20),
   Op.advanceOp, Op.advanceOp, Op.advanceOp, Op.advanceOp, Op.advanceOp]

/-- C8: under the Initiative strategy the round order is frozen at round
start: a priority update whose target leaves the current participant
eligible changes neither the current TurnRecord nor the frozen remainder
of the round and emits no event — priority changes only take effect at the
next round boundary.  On the spec's scenario {A=1:prio5, B=2:prio9,
C=3:prio2}, round 1 runs [B, A, C] even though A's priority is raised to 20
during round 1, and round 2 then runs [A, B, C]. -/
theorem C8_initiative_frozen (s : Scheduler) (r : TurnRecord) (i : Nat)
    (v : Int) (hst : s.state = SchedState.InProgress)
    (hrec : s.record = some r)
    (hel : s.registry.eligId r.current = true) :
    (s.notifyMutation (MutationEvent.UpdatePriorityP i v)).2.1.record
      = some r ∧
    (s.notifyMutation (MutationEvent.UpdatePriorityP i v)).2.1.pending
      = s.pending ∧
    (s.notifyMutation (MutationEvent.UpdatePriorityP i v)).2.2 = [] ∧
    ((initScheduler StrategyKind.Initiative regABC).runOps demoOps8).2
      = [Event.EncounterStarted,
         Event.TurnStarted 2 1 0, Event.TurnEnded 2 false,
         Event.TurnStarted 1 1 1, Event.TurnEnded 1 false,
         Event.TurnStarted 3 1 2, Event.TurnEnded 3 false,
         Event.TurnStarted 1 2 0, Event.TurnEnded 1 false,
         Event.TurnStarted 2 2 1, Event.TurnEnded 2 false,
         Event.TurnStarted 3 2 2] := by
  obtain ⟨reg, strat, st, rec, pend⟩ := s
  subst hst
  cases hrec
  unfold Scheduler.notifyMutation Registry.applyMutation
  cases hm : reg.updatePriority i v with
  | error e =>
      simp only [hm]
      exact ⟨trivial, trivial, trivial, by decide⟩
  | ok reg' =>
      have he' : reg'.eligId r.current = true := by
        rw [updatePriority_eligId hm r.current]
        exact hel
      simp only [hm, he', if_true]
      exact ⟨trivial, trivial, trivial, by decide⟩

theorem C8_witness :
    (sStartedABC.notifyMutation
      (MutationEvent.UpdatePriorityP 1 20)).2.1.record = some ⟨2, 1, 0⟩ ∧
    (sStartedABC.notifyMutation
      (MutationEvent.UpdatePriorityP 1 20)).2.1.pending
      = sStartedABC.pending ∧
    (sStartedABC.notifyMutation (MutationEvent.UpdatePriorityP 1 20)).2.2
      = [] ∧
    ((initScheduler StrategyKind.Initiative regABC).runOps demoOps8).2
      = [Event.EncounterStarted,
         Event.TurnStarted 2 1 0, Event.TurnEnded 2 false,
         Event.TurnStarted 1 1 1, Event.TurnEnded 1 false,
         Event.TurnStarted 3 1 2, Event.TurnEnded 3 false,
         Event.TurnStarted 1 2 0, Event.TurnEnded 1 false,
         Event.TurnStarted 2 2 1, Event.TurnEnded 2 false,
         Event.TurnStarted 3 2 2] :=
  C8_initiative_frozen sStartedABC ⟨2, 1, 0⟩ 1 20 (by rfl) (by rfl) (by decide)

/-- C9: `Start()` moves NotStarted → InProgress and triggers the first
ComputeOrder, making its head current at round 1, index 0; on an empty
registry it fails with NoParticipants and the scheduler stays NotStarted
unchanged; `Add` fails with DuplicateId when the id already exists;
`Remove` fails with NotFound when the id is absent — each failure returned
as an explicit result value. -/
theorem C9_start_add_remove
    (s₁ s₂ : Scheduler) (reg : Registry) (i sd : Nat) (prio : Int)
    (j i2 : Nat) (rest : List Nat)
    (hst₁ : s₁.state = SchedState.NotStarted)
    (hempty : s₁.registry.parts = [])
    (hst₂ : s₂.state = SchedState.NotStarted)
    (hord : ComputeOrder s₂.strategy s₂.registry.snapshot = i2 :: rest)
    (hne : s₂.registry.parts.isEmpty = false)
    (hdup : ∃ p ∈ reg.parts, p.pid = i)
    (habs : reg.lookup j = none) :
    s₁.start = (OpResult.NoParticipants, s₁, []) ∧
    (s₂.start).1 = OpResult.Ok ∧
    (s₂.start).2.1.state = SchedState.InProgress ∧
    (s₂.start).2.1.record = some ⟨i2, 1, 0⟩ ∧
    (s₂.start).2.2 = [Event.EncounterStarted, Event.TurnStarted i2 1 0] ∧
    reg.add i sd prio = Except.error RegError.DuplicateId ∧
    reg.remove j = Except.error RegError.NotFound := by
  have h1 : s₁.start = (OpResult.NoParticipants, s₁, []) := by
    obtain ⟨reg₁, strat₁, st, rec, pend⟩ := s₁
    subst hst₁
    have hie : reg₁.parts.isEmpty = true := by
      rw [hempty]
      rfl
    unfold Scheduler.start
    simp only [hie, if_true]
  have h2 : (s₂.start).1 = OpResult.Ok ∧
      (s₂.start).2.1.state = SchedState.InProgress ∧
      (s₂.start).2.1.record = some ⟨i2, 1, 0⟩ ∧
      (s₂.start).2.2 = [Event.EncounterStarted, Event.TurnStarted i2 1 0] := by
    obtain ⟨reg₂, strat₂, st, rec, pend⟩ := s₂
    subst hst₂
    unfold Scheduler.start
    simp only [hne, Bool.false_eq_true, if_false, hord]
    refine ⟨?_, ?_, ?_, ?_⟩ <;> trivial
  have h3 : reg.add i sd prio = Except.error RegError.DuplicateId := by
    have hany : reg.parts.any (fun p => p.pid == i) = true := by
      rw [List.any_eq_true]
      obtain ⟨p, hp, hpi⟩ := hdup
      exact ⟨p, hp, by simp [hpi]⟩
    unfold Registry.add
    rw [if_pos hany]
  have h4 : reg.remove j = Except.error RegError.NotFound := by
    have hnone := List.find?_eq_none.mp habs
    have hany2 : reg.parts.any (fun p => p.pid == j) = false := by
      rw [Bool.eq_false_iff]
      intro hc
      obtain ⟨p, hp, hpj⟩ := List.any_eq_true.mp hc
      exact hnone p hp hpj
    unfold Registry.remove Registry.setStatus
    rw [if_neg (by simp [hany2])]
  exact ⟨h1, h2.1, h2.2.1, h2.2.2.1, h2.2.2.2, h3, h4⟩

theorem C9_witness :
    (initScheduler StrategyKind.Initiative (⟨[], 0⟩ : Registry)).start
      = (OpResult.NoParticipants,
         initScheduler StrategyKind.Initiative (⟨[], 0⟩ : Registry), []) ∧
    ((initScheduler StrategyKind.Initiative regABC).start).1
      = OpResult.Ok ∧
    ((initScheduler StrategyKind.Initiative regABC).start).2.1.state
      = SchedState.InProgress ∧
    ((initScheduler StrategyKind.Initiative regABC).start).2.1.record
      = some ⟨2, 1, 0⟩ ∧
    ((initScheduler StrategyKind.Initiative regABC).start).2.2
      = [Event.EncounterStarted, Event.TurnStarted 2 1 0] ∧
    regABC.add 2 7 0 = Except.error RegError.DuplicateId ∧
    regABC.remove 99 = Except.error RegError.NotFound :=
  C9_start_add_remove
    (initScheduler StrategyKind.Initiative (⟨[], 0⟩ : Registry))
    (initScheduler StrategyKind.Initiative regABC)
    regABC 2 7 0 99 2 [1, 3]
    rfl rfl rfl (by decide) (by decide) (by decide) (by decide)

end TurnCore
